import Mathlib

/-!
Shallow embedding of the wplace-headmap data-collection pipeline
(src/wp-heatmap.py, the chunked/resumable variant, and src/wp-headmap.py,
the single-pass variant), together with theorems checking the
natural-language specification against it.

Numbers are modelled as `Int` (Python integers are unbounded), fallible
code as `Except`/`Option`, and the per-block file state (the terminal
chunk file and the row checkpoint file) as an explicit record threaded
through `process_block`.
-/

/-- Tile-plus-offset coordinate spec, as in the START/END dicts of both
scripts: tile indices `tlx`,`tly` and in-tile offsets `pxx`,`pxy`. -/
structure Corner where
  tlx : Int
  tly : Int
  pxx : Int
  pxy : Int
deriving DecidableEq

/-- Models `world_coords` / `to_world_coords`: each tile is 1000 by 1000,
so `wx = tlx * 1000 + pxx`, `wy = tly * 1000 + pxy`. -/
def world_coords (tlx tly pxx pxy : Int) : Int × Int :=
  (tlx * 1000 + pxx, tly * 1000 + pxy)

/-- Models `rect_bounds` of src/wp-heatmap.py (lines 74-77): resolves both
corners to world coordinates and returns them with no validation. -/
def rect_bounds (s e : Corner) : Int × Int × Int × Int :=
  let w0 := world_coords s.tlx s.tly s.pxx s.pxy
  let w1 := world_coords e.tlx e.tly e.pxx e.pxy
  (w0.1, w0.2, w1.1, w1.2)

/-- Models `rect_world_bounds` of src/wp-headmap.py (lines 59-68): resolves
both corners and raises ValueError when the end precedes the start on
either axis. -/
def rect_world_bounds (s e : Corner) : Except String (Int × Int × Int × Int) :=
  let w0 := world_coords s.tlx s.tly s.pxx s.pxy
  let w1 := world_coords e.tlx e.tly e.pxx e.pxy
  if w1.1 < w0.1 ∨ w1.2 < w0.2 then
    Except.error "Rectangulo invalido: el final esta antes del inicio."
  else
    Except.ok (w0.1, w0.2, w1.1, w1.2)

/-- Optional owner object of the pixel-metadata JSON: `paintedBy` may carry
a display name and a numeric id, either of which may be absent. -/
structure Owner where
  name : Option String
  id : Option Int
deriving DecidableEq

/-- Outcome taxonomy of `fetch_pixel` (src/wp-heatmap.py lines 84-109):
HTTP 404, 429, 5xx, timeout, generic exception, or parsed JSON whose
`paintedBy` field is optional. -/
inductive FetchResult where
  | notFound
  | rateLimit
  | serverError
  | timeout
  | error
  | success (paintedBy : Option Owner)
deriving DecidableEq

/-- A deterministic single-attempt fetcher: the result of
`fetch_pixel(tlx, tly, pxx, pxy)` for each coordinate. -/
def Fetcher : Type := Int → Int → Int → Int → FetchResult

/-- One pixel-attribution record, as appended to `row_pixels`
(src/wp-heatmap.py line 247): rectangle-relative coordinates and the
painter key list. -/
structure PixelRec where
  x : Int
  y : Int
  painters : List String
deriving DecidableEq

/-- Block edge length, `BLOCK_SIZE = 10` (src/wp-heatmap.py line 62). -/
def BLOCK_SIZE : Nat := 10

/-- Models the owner-truthiness test of src/wp-heatmap.py lines 239-244:
`pb = data.get("paintedBy") or {}`, then `if name and pid:` builds the
key `f"{name}#{pid}"`.  Python truthiness: an empty name or a zero id is
falsy, as is an absent field. -/
def ownerKey : Option Owner → Option String
  | none => none
  | some o =>
    match o.name, o.id with
    | some n, some i =>
        if n ≠ "" ∧ i ≠ 0 then some (n ++ "#" ++ toString i) else none
    | _, _ => none

/-- Boolean version of the condition under which the code emits no record:
owner absent, name absent or empty, or id absent or zero. -/
def falsy_owner : Option Owner → Bool
  | none => true
  | some o =>
    match o.name, o.id with
    | some n, some i => n == "" || i == 0
    | _, _ => true

/-- How `process_block` reacts to one fetched pixel
(src/wp-heatmap.py lines 225-247): a transient outcome aborts the row, a
404 or falsy owner is skipped, otherwise a record is emitted. -/
inductive PixelStep where
  | transient
  | skip
  | record (r : PixelRec)
deriving DecidableEq

/-- Classifies one `fetch_pixel` result as `process_block` does:
RATE_LIMIT / SERVER_ERROR / TIMEOUT / ERROR are transient; 404 is
skipped; a success emits a record exactly when the owner key is truthy,
with rectangle-relative coordinates `wx - wx0`, `wy - wy0`. -/
def classify_pixel (wx0 wy0 wx wy : Int) : FetchResult → PixelStep
  | .rateLimit => .transient
  | .serverError => .transient
  | .timeout => .transient
  | .error => .transient
  | .notFound => .skip
  | .success pb =>
    match ownerKey pb with
    | some key => .record ⟨wx - wx0, wy - wy0, [key]⟩
    | none => .skip

/-- Inner column loop of `process_block` (src/wp-heatmap.py lines 215-247)
over the remaining column indices: `wx = bx + col`, break once
`wx > wx1`; returns `none` when a transient outcome aborts the row,
otherwise the list of records the row accumulated. -/
def runColsAux (fetch : Fetcher) (bx wy wx0 wy0 wx1 : Int) :
    List Nat → Option (List PixelRec)
  | [] => some []
  | col :: rest =>
    let wx : Int := bx + (col : Int)
    if wx > wx1 then some []
    else
      match classify_pixel wx0 wy0 wx wy
          (fetch (Int.fdiv wx 1000) (Int.fdiv wy 1000)
            (Int.emod wx 1000) (Int.emod wy 1000)) with
      | .transient => none
      | .skip => runColsAux fetch bx wy wx0 wy0 wx1 rest
      | .record r => (runColsAux fetch bx wy wx0 wy0 wx1 rest).map (r :: ·)

/-- One full row of a block: the column loop over `range(BLOCK_SIZE)`. -/
def runCols (fetch : Fetcher) (bx wy wx0 wy0 wx1 : Int) : Option (List PixelRec) :=
  runColsAux fetch bx wy wx0 wy0 wx1 (List.range BLOCK_SIZE)

/-- Terminal per-block aggregate, the contents of `chunk_{bx}_{by}.json`:
painter counts (an insertion-ordered association list, modelling the
Python dict) and the flattened pixel list. -/
structure Aggregate where
  painterCounts : List (String × Nat)
  pixels : List PixelRec
deriving DecidableEq

/-- `defaultdict(int)` increment preserving first-insertion order:
`counts[key] += c`. -/
def bump : List (String × Nat) → String → Nat → List (String × Nat)
  | [], k, c => [(k, c)]
  | (k0, c0) :: t, k, c =>
    if k0 = k then (k0, c0 + c) :: t else (k0, c0) :: bump t k c

/-- Folds one checkpoint record into the aggregate being built
(src/wp-heatmap.py lines 259-263): every key of the record bumps its
count and the record is appended to the pixel list. -/
def addRecord (st : List (String × Nat) × List PixelRec) (p : PixelRec) :
    List (String × Nat) × List PixelRec :=
  (p.painters.foldl (fun cs k => bump cs k 1) st.1, st.2 ++ [p])

/-- Builds the terminal aggregate from the checkpoint rows
(src/wp-heatmap.py lines 256-268). -/
def buildAggregate (rows : List (List PixelRec)) : Aggregate :=
  let st := rows.foldl (fun st row => row.foldl addRecord st) ([], [])
  ⟨st.1, st.2⟩

/-- Durable per-block file state: the terminal chunk file
(`chunk_{bx}_{by}.json`) and the row checkpoint file
(`chunk_{bx}_{by}.partial.json`), each possibly absent. -/
structure BlockFiles where
  finalFile : Option Aggregate
  ckptFile : Option (List (List PixelRec))
deriving DecidableEq

/-- Return value of `process_block`: the final-file path (block completed
or already done), `"RETRY"`, or `"FAILED"`. -/
inductive BlockResult where
  | completed
  | retry
  | failed
deriving DecidableEq

/-- Completion step of `process_block` (src/wp-heatmap.py lines 255-277):
build the aggregate from the checkpoint rows, write the terminal file,
delete the checkpoint file. -/
def finishBlock (ckpt_rows : List (List PixelRec)) : BlockResult × BlockFiles :=
  (.completed, ⟨some (buildAggregate ckpt_rows), none⟩)

/-- Row loop of `process_block` (src/wp-heatmap.py lines 206-253) over the
remaining row indices: `wy = by + row_index`, break once `wy > wy1`; a
transient row increments `retry_count` and returns FAILED when it reaches
5, else RETRY, leaving the files as they are; a completed row is appended
to the checkpoint rows and the checkpoint file is rewritten. -/
def runRows (fetch : Fetcher) (bx byc wx0 wy0 wx1 wy1 : Int) (retry_count : Nat) :
    List Nat → List (List PixelRec) → BlockFiles → BlockResult × BlockFiles
  | [], ckpt_rows, _ => finishBlock ckpt_rows
  | row :: rest, ckpt_rows, files =>
    let wy : Int := byc + (row : Int)
    if wy > wy1 then finishBlock ckpt_rows
    else
      match runCols fetch bx wy wx0 wy0 wx1 with
      | none =>
        if retry_count + 1 ≥ 5 then (.failed, files) else (.retry, files)
      | some row_pixels =>
        let ckpt2 := ckpt_rows ++ [row_pixels]
        runRows fetch bx byc wx0 wy0 wx1 wy1 retry_count rest ckpt2
          ⟨files.finalFile, some ckpt2⟩

/-- Models `process_block(bx, by, wx0, wy0, wx1, wy1, throttle)`
(src/wp-heatmap.py lines 184-277).  If the terminal file exists the block
is skipped; otherwise the checkpoint rows are loaded (absent or
unreadable means empty), `rows_done = len(partial_data)`,
`retry_count = 0`, and the row loop runs over
`range(rows_done, BLOCK_SIZE)`. -/
def process_block (fetch : Fetcher) (bx byc wx0 wy0 wx1 wy1 : Int)
    (files : BlockFiles) : BlockResult × BlockFiles :=
  match files.finalFile with
  | some _ => (.completed, files)
  | none =>
    let ckpt_rows := files.ckptFile.getD []
    let rows_done := ckpt_rows.length
    runRows fetch bx byc wx0 wy0 wx1 wy1 0
      (List.range' rows_done (BLOCK_SIZE - rows_done)) ckpt_rows files

/-- Models Python `range(a, b + 1, step)` over integers: the values
`a + step * i` for `i` up to `(b - a) / step`, empty when `a > b`. -/
def rangeStep (a b : Int) (step : Nat) : List Int :=
  if a ≤ b then
    (List.range ((b - a).toNat / step + 1)).map (fun i : Nat => a + (step : Int) * (i : Int))
  else []

/-- Block enumeration of `collect_data_parallel`
(src/wp-heatmap.py lines 282-285): `by` over `range(wy0, wy1+1, 10)`
outer, `bx` over `range(wx0, wx1+1, 10)` inner, block = `(bx, by)`. -/
def enum_blocks (wx0 wy0 wx1 wy1 : Int) : List (Int × Int) :=
  (rangeStep wy0 wy1 BLOCK_SIZE).flatMap
    (fun byc => (rangeStep wx0 wx1 BLOCK_SIZE).map (fun bx => (bx, byc)))

/-- Clipped extent of the block at `(bx, byc)`, exactly the pixels its
loops visit (src/wp-heatmap.py lines 206-218): `x = bx + col` for
`col < BLOCK_SIZE` with `x ≤ wx1`, and likewise for rows. -/
def blockCovers (wx1 wy1 bx byc x y : Int) : Prop :=
  (bx ≤ x ∧ x ≤ bx + ((BLOCK_SIZE : Int) - 1) ∧ x ≤ wx1) ∧
  (byc ≤ y ∧ y ≤ byc + ((BLOCK_SIZE : Int) - 1) ∧ y ≤ wy1)

instance (wx1 wy1 bx byc x y : Int) : Decidable (blockCovers wx1 wy1 bx byc x y) := by
  unfold blockCovers; infer_instance

/-- The per-block driver loop of `collect_data_parallel`
(src/wp-heatmap.py lines 294-297): `while True: result = process_block(...);
if result != "RETRY": break`, with explicit fuel; `none` means the loop
has not terminated within the given number of attempts. -/
def driveBlock (fetch : Fetcher) (bx byc wx0 wy0 wx1 wy1 : Int) :
    Nat → BlockFiles → Option (BlockResult × BlockFiles)
  | 0, _ => none
  | fuel + 1, files =>
    let r := process_block fetch bx byc wx0 wy0 wx1 wy1 files
    if r.1 = .retry then driveBlock fetch bx byc wx0 wy0 wx1 wy1 fuel r.2
    else some r

/-- Merged dataset being built by the merge loop
(src/wp-heatmap.py lines 300-313): global painter counts and the
per-coordinate painter set (`defaultdict(set)`), both insertion-ordered. -/
structure Merged where
  painter_counts : List (String × Nat)
  pixel_map : List ((Int × Int) × List String)
deriving DecidableEq

/-- The empty merged dataset. -/
def emptyMerged : Merged := ⟨[], []⟩

/-- `set.add`: append the key unless already present. -/
def addToSet (s : List String) (k : String) : List String :=
  if k ∈ s then s else s ++ [k]

/-- `pixel_map[(x, y)].add(key)` on the insertion-ordered association
list modelling `defaultdict(set)`. -/
def mapAdd : List ((Int × Int) × List String) → (Int × Int) → String →
    List ((Int × Int) × List String)
  | [], xy, k => [(xy, [k])]
  | (xy0, s) :: t, xy, k =>
    if xy0 = xy then (xy0, addToSet s k) :: t else (xy0, s) :: mapAdd t xy k

/-- `for k, c in cdata["painterCounts"].items(): painter_counts[k] += c`. -/
def mergeCounts (cs : List (String × Nat)) (entries : List (String × Nat)) :
    List (String × Nat) :=
  entries.foldl (fun acc e => bump acc e.1 e.2) cs

/-- `for p in cdata["pixels"]: pixel_map[(p["x"], p["y"])].add(p["painters"][0])`;
indexing `[0]` on an empty painter list raises IndexError. -/
def mergePixels : List ((Int × Int) × List String) → List PixelRec →
    Except String (List ((Int × Int) × List String))
  | m, [] => .ok m
  | m, p :: rest =>
    match p.painters with
    | [] => .error "IndexError: list index out of range"
    | k :: _ => mergePixels (mapAdd m (p.x, p.y) k) rest

/-- A file of the chunks directory whose name ends in `.json`: either a
terminal chunk file (a dict with painterCounts and pixels) or a leftover
row checkpoint `chunk_{bx}_{by}.partial.json` (a bare JSON list of rows,
which also ends in `.json`). -/
inductive ChunkFile where
  | final (agg : Aggregate)
  | ckpt (rows : List (List PixelRec))
deriving DecidableEq

/-- Merge loop of `collect_data_parallel` (src/wp-heatmap.py lines
299-313) over every listed `.json` file: a terminal chunk folds its
counts and pixels into the merged dataset; a checkpoint file parses as a
JSON list, and `cdata["painterCounts"]` on a list raises TypeError. -/
def merge_chunks : Merged → List ChunkFile → Except String Merged
  | st, [] => .ok st
  | _, ChunkFile.ckpt _ :: _ =>
    .error "TypeError: list indices must be integers or slices, not str"
  | st, ChunkFile.final agg :: rest =>
    match mergePixels st.pixel_map agg.pixels with
    | .error e => .error e
    | .ok pm => merge_chunks ⟨mergeCounts st.painter_counts agg.painterCounts, pm⟩ rest

/-- Total count lookup in an association list (a Python dict has unique
keys; summing all matching entries agrees with that and is total). -/
def lookupCount : List (String × Nat) → String → Nat
  | [], _ => 0
  | (k0, c) :: t, k => (if k0 = k then c else 0) + lookupCount t k

/-- Painter set lookup at a coordinate of the merged pixel map. -/
def lookupSet : List ((Int × Int) × List String) → (Int × Int) → List String
  | [], _ => []
  | (xy0, s) :: t, xy => (if xy0 = xy then s else []) ++ lookupSet t xy

/-- Stable insert keeping counts descending: the new entry goes after
every already-placed entry of greater-or-equal count. -/
def insertDesc (x : String × Nat) : List (String × Nat) → List (String × Nat)
  | [] => [x]
  | y :: ys => if y.2 < x.2 then x :: y :: ys else y :: insertDesc x ys

/-- Models `sorted(painter_counts.items(), key=lambda x: x[1], reverse=True)`
(src/wp-heatmap.py line 335): a stable sort by descending count,
realised as left-to-right stable insertion. -/
def sorted_by_count_desc (l : List (String × Nat)) : List (String × Nat) :=
  l.foldl (fun acc x => insertDesc x acc) []

/-- The structured `data` dict written by `export_json`
(src/wp-heatmap.py lines 322-344), minus the raw corner echo. -/
structure ExportJson where
  world : Int × Int × Int × Int
  width : Int
  height : Int
  painterCounts : List (String × Nat)
  pixels : List PixelRec
deriving DecidableEq

/-- Models `export_json`: resolves the rectangle, sorts the leaderboard
by descending count (stable), and lists the per-pixel painter sets. -/
def export_json (s e : Corner) (painter_counts : List (String × Nat))
    (pixel_map : List ((Int × Int) × List String)) : ExportJson :=
  let b := rect_bounds s e
  { world := b
    width := b.2.2.1 - b.1 + 1
    height := b.2.2.2 - b.2.1 + 1
    painterCounts := sorted_by_count_desc painter_counts
    pixels := pixel_map.map (fun en => ⟨en.1.1, en.1.2, en.2⟩) }

/-- Ghost function for stating restart-idempotence: the rows a block
computes when no transient outcome occurs, i.e. the checkpoint contents
of an uninterrupted run over the given row indices. -/
def computeRows (fetch : Fetcher) (bx byc wx0 wy0 wx1 wy1 : Int) :
    List Nat → Option (List (List PixelRec))
  | [] => some []
  | row :: rest =>
    let wy : Int := byc + (row : Int)
    if wy > wy1 then some []
    else
      match runCols fetch bx wy wx0 wy0 wx1 with
      | none => none
      | some px => (computeRows fetch bx byc wx0 wy0 wx1 wy1 rest).map (px :: ·)

/-! ## Helper lemmas and named fetchers -/

/-- A fetcher whose every request is rate limited (HTTP 429). -/
def always_rate_limited : Fetcher := fun _ _ _ _ => .rateLimit

/-- The row loop never returns FAILED: `retry_count` enters as 0 and the
function returns on the first transient outcome, so the `>= 5` test
cannot succeed within one call. -/
theorem runRows_no_failed (fetch : Fetcher) (bx byc wx0 wy0 wx1 wy1 : Int) :
    ∀ (rows : List Nat) (cur : List (List PixelRec)) (files : BlockFiles),
      (runRows fetch bx byc wx0 wy0 wx1 wy1 0 rows cur files).1 = .retry ∨
      (runRows fetch bx byc wx0 wy0 wx1 wy1 0 rows cur files).1 = .completed := by
  intro rows
  induction rows with
  | nil => intro cur files; exact Or.inr rfl
  | cons row rest ih =>
    intro cur files
    simp only [runRows]
    by_cases hwy : byc + (row : Int) > wy1
    · rw [if_pos hwy]; exact Or.inr rfl
    · rw [if_neg hwy]
      cases hc : runCols fetch bx (byc + (row : Int)) wx0 wy0 wx1 with
      | none => left; norm_num
      | some px => exact ih _ _

/-- Claim C3: if the terminal aggregate file already exists when
`process_block` is entered, it returns Completed immediately, for every
fetcher alike (so no fetch can influence the result) and with the file
state unchanged (so nothing is modified); in particular a state where the
aggregate exists and the checkpoint was not yet deleted is still
recognized as Completed. -/
theorem claim_C3 : ∀ (fetch : Fetcher) (bx byc wx0 wy0 wx1 wy1 : Int)
    (agg : Aggregate) (files : BlockFiles),
    files.finalFile = some agg →
    process_block fetch bx byc wx0 wy0 wx1 wy1 files = (.completed, files) := by
  intro fetch bx byc wx0 wy0 wx1 wy1 agg files h
  simp [process_block, h]

/-- Witness for claim C3: the crash-recovery state whose aggregate file
exists while the checkpoint file is still present, driven by an
always-rate-limited fetcher, is skipped as Completed with both files
untouched. -/
theorem claim_C3_witness :
    process_block always_rate_limited 0 0 0 0 9 9
        ⟨some ⟨[("A#7", 1)], [⟨0, 0, ["A#7"]⟩]⟩, some [[⟨0, 0, ["A#7"]⟩]]⟩ =
      (.completed, ⟨some ⟨[("A#7", 1)], [⟨0, 0, ["A#7"]⟩]⟩, some [[⟨0, 0, ["A#7"]⟩]]⟩) :=
  claim_C3 always_rate_limited 0 0 0 0 9 9 ⟨[("A#7", 1)], [⟨0, 0, ["A#7"]⟩]⟩ _ rfl

/-- Claim C1 (code evidence): `process_block` can only ever return RETRY
or the completed final file, never FAILED, because `retry_count` is a
local variable reset to 0 on every call and the call returns on its first
transient outcome, so the `retry_count >= 5` branch is unreachable. -/
theorem claim_C1 : ∀ (fetch : Fetcher) (bx byc wx0 wy0 wx1 wy1 : Int)
    (files : BlockFiles),
    (process_block fetch bx byc wx0 wy0 wx1 wy1 files).1 = .retry ∨
    (process_block fetch bx byc wx0 wy0 wx1 wy1 files).1 = .completed := by
  intro fetch bx byc wx0 wy0 wx1 wy1 files
  cases h : files.finalFile with
  | some agg => right; simp [process_block, h]
  | none =>
    simp only [process_block, h]
    exact runRows_no_failed fetch bx byc wx0 wy0 wx1 wy1 _ _ _

/-- Claim C6 (code evidence): a block whose every fetch is rate limited is
retried forever by the orchestrator loop of `collect_data_parallel` — the
loop terminates for no amount of fuel, so the run never records a failure,
never reaches the remaining blocks and never reaches the merge; moreover
the merge loop, which matches any file name ending in `.json`, crashes
with a TypeError when it meets a leftover row-checkpoint file. -/
theorem claim_C6 :
    (∀ fuel : Nat,
      driveBlock always_rate_limited 0 0 0 0 9 9 fuel ⟨none, none⟩ = none) ∧
    merge_chunks emptyMerged [ChunkFile.ckpt [[]]] =
      .error "TypeError: list indices must be integers or slices, not str" := by
  constructor
  · intro fuel
    induction fuel with
    | zero => rfl
    | succ n ih =>
      have hstep : process_block always_rate_limited 0 0 0 0 9 9 ⟨none, none⟩ =
          (.retry, ⟨none, none⟩) := by decide
      simp only [driveBlock, hstep]
      simpa using ih
  · rfl

/-- Counterexample to claim C8 as stated: with a start corner resolving to
world x 1 and an end corner resolving to world x 0 the end precedes the
start on the x axis, yet `rect_bounds` of src/wp-heatmap.py performs no
validation and succeeds, returning the corners unchanged instead of
failing with an InvalidRectangle error. -/
theorem claim_C8_counterexample :
    (world_coords 0 0 0 0).1 < (world_coords 0 0 1 0).1 ∧
    rect_bounds ⟨0, 0, 1, 0⟩ ⟨0, 0, 0, 0⟩ = (1, 0, 0, 0) := by
  constructor
  · decide
  · rfl

/-- Claim C8 as amended: `rect_world_bounds` of src/wp-headmap.py fails
with the InvalidRectangle (ValueError) message exactly when the resolved
end precedes the resolved start on either axis, and on all other inputs
succeeds with the two resolved corners (the same value the unvalidated
`rect_bounds` of src/wp-heatmap.py always returns). -/
theorem claim_C8 : ∀ s e : Corner,
    (((world_coords e.tlx e.tly e.pxx e.pxy).1 <
        (world_coords s.tlx s.tly s.pxx s.pxy).1 ∨
      (world_coords e.tlx e.tly e.pxx e.pxy).2 <
        (world_coords s.tlx s.tly s.pxx s.pxy).2) →
      rect_world_bounds s e =
        .error "Rectangulo invalido: el final esta antes del inicio.") ∧
    (¬((world_coords e.tlx e.tly e.pxx e.pxy).1 <
        (world_coords s.tlx s.tly s.pxx s.pxy).1 ∨
      (world_coords e.tlx e.tly e.pxx e.pxy).2 <
        (world_coords s.tlx s.tly s.pxx s.pxy).2) →
      rect_world_bounds s e = .ok (rect_bounds s e)) := by
  intro s e
  constructor
  · intro h
    simp only [rect_world_bounds]
    rw [if_pos h]
  · intro h
    simp only [rect_world_bounds, rect_bounds]
    rw [if_neg h]

/-- Witness for claim C8: an inverted rectangle is rejected by
`rect_world_bounds` and a valid one resolves to the same corners
`rect_bounds` returns. -/
theorem claim_C8_witness :
    rect_world_bounds ⟨0, 0, 1, 0⟩ ⟨0, 0, 0, 0⟩ =
      .error "Rectangulo invalido: el final esta antes del inicio." ∧
    rect_world_bounds ⟨0, 0, 0, 0⟩ ⟨0, 0, 5, 2⟩ =
      .ok (rect_bounds ⟨0, 0, 0, 0⟩ ⟨0, 0, 5, 2⟩) :=
  ⟨(claim_C8 ⟨0, 0, 1, 0⟩ ⟨0, 0, 0, 0⟩).1 (by decide),
   (claim_C8 ⟨0, 0, 0, 0⟩ ⟨0, 0, 5, 2⟩).2 (by decide)⟩

/-- A falsy owner never yields a key: absent owner, absent or empty name,
absent or zero id all fail the `if name and pid:` truthiness test. -/
theorem ownerKey_falsy (ow : Option Owner) (h : falsy_owner ow = true) :
    ownerKey ow = none := by
  cases ow with
  | none => rfl
  | some o =>
    obtain ⟨n, i⟩ := o
    cases n with
    | none => cases i <;> rfl
    | some nm =>
      cases i with
      | none => rfl
      | some iv =>
        simp only [falsy_owner, Bool.or_eq_true, beq_iff_eq] at h
        simp only [ownerKey, ite_eq_right_iff]
        intro hcon
        rcases h with h | h
        · exact absurd h hcon.1
        · exact absurd h hcon.2

/-- Claim C10: a pixel whose fetch succeeds with a falsy owner (absent
owner object, empty or absent display name, zero or absent numeric id) is
processed exactly like a skipped pixel: the column loop continues with
the remaining columns, emitting no attribution record and signalling no
transient outcome (hence the retry counter is untouched). -/
theorem claim_C10 : ∀ (fetch : Fetcher) (bx wy wx0 wy0 wx1 : Int)
    (col : Nat) (rest : List Nat) (ow : Option Owner),
    bx + (col : Int) ≤ wx1 →
    fetch (Int.fdiv (bx + (col : Int)) 1000) (Int.fdiv wy 1000)
        (Int.emod (bx + (col : Int)) 1000) (Int.emod wy 1000) = .success ow →
    falsy_owner ow = true →
    runColsAux fetch bx wy wx0 wy0 wx1 (col :: rest) =
      runColsAux fetch bx wy wx0 wy0 wx1 rest := by
  intro fetch bx wy wx0 wy0 wx1 col rest ow hb hf hfalsy
  simp only [runColsAux]
  rw [if_neg (not_lt.mpr hb), hf]
  simp [classify_pixel, ownerKey_falsy ow hfalsy]

/-- Witness for claim C10: an owner present but with id 0 is treated like
an unset owner — the pixel contributes nothing and the loop moves on. -/
theorem claim_C10_witness :
    runColsAux (fun _ _ _ _ => .success (some ⟨some "X", some 0⟩))
        0 0 0 0 9 [0] =
      runColsAux (fun _ _ _ _ => .success (some ⟨some "X", some 0⟩))
        0 0 0 0 9 [] :=
  claim_C10 (fun _ _ _ _ => .success (some ⟨some "X", some 0⟩))
    0 0 0 0 9 0 [] (some ⟨some "X", some 0⟩)
    (by decide) (by decide) (by decide)

/-- Row loop under a transient outcome: if the rows at offsets
`s ..< s+m` each complete (with contents `pix 0 ..< pix m`) and the row at
offset `s+m` is within the clipped extent but aborts with a transient
outcome, the loop returns RETRY with exactly the completed rows appended
to the checkpoint — the aborted row is not committed. -/
theorem runRows_retry (fetch : Fetcher) (bx byc wx0 wy0 wx1 wy1 : Int) :
    ∀ (m s n : Nat) (pix : Nat → List PixelRec) (cur : List (List PixelRec))
      (files : BlockFiles),
    files.ckptFile = some cur →
    m < n →
    (∀ i, i < m →
      runCols fetch bx (byc + ((s + i : Nat) : Int)) wx0 wy0 wx1 = some (pix i)) →
    byc + ((s + m : Nat) : Int) ≤ wy1 →
    runCols fetch bx (byc + ((s + m : Nat) : Int)) wx0 wy0 wx1 = none →
    runRows fetch bx byc wx0 wy0 wx1 wy1 0 (List.range' s n) cur files =
      (.retry, ⟨files.finalFile, some (cur ++ (List.range m).map pix)⟩) := by
  intro m
  induction m with
  | zero =>
    intro s n pix cur files hck hn hgood hwy hfail
    obtain ⟨n', rfl⟩ : ∃ n', n = n' + 1 := ⟨n - 1, by omega⟩
    rw [List.range'_succ]
    simp only [runRows]
    have hs : ((s + 0 : Nat) : Int) = (s : Int) := by norm_num
    rw [hs] at hwy hfail
    rw [if_neg (not_lt.mpr hwy), hfail]
    norm_num
    cases files with
    | mk ff ck =>
      simp only [BlockFiles.mk.injEq] at hck ⊢
      simp [hck]
  | succ m ih =>
    intro s n pix cur files hck hn hgood hwy hfail
    obtain ⟨n', rfl⟩ : ∃ n', n = n' + 1 := ⟨n - 1, by omega⟩
    rw [List.range'_succ]
    simp only [runRows]
    have h0 : runCols fetch bx (byc + ((s + 0 : Nat) : Int)) wx0 wy0 wx1 =
        some (pix 0) := hgood 0 (Nat.succ_pos m)
    have hs0 : ((s + 0 : Nat) : Int) = (s : Int) := by norm_num
    rw [hs0] at h0
    have hwys : ¬ (byc + (s : Int) > wy1) := by
      push_cast at hwy ⊢
      omega
    rw [if_neg hwys, h0]
    have hg2 : ∀ i, i < m →
        runCols fetch bx (byc + ((s + 1 + i : Nat) : Int)) wx0 wy0 wx1 =
          some (pix (i + 1)) := by
      intro i hi
      have hg := hgood (i + 1) (by omega)
      have heq : s + (i + 1) = s + 1 + i := by omega
      rw [heq] at hg
      exact hg
    have hwy2 : byc + ((s + 1 + m : Nat) : Int) ≤ wy1 := by
      have heq : s + (m + 1) = s + 1 + m := by omega
      rw [heq] at hwy
      exact hwy
    have hfail2 : runCols fetch bx (byc + ((s + 1 + m : Nat) : Int)) wx0 wy0 wx1 =
        none := by
      have heq : s + (m + 1) = s + 1 + m := by omega
      rw [heq] at hfail
      exact hfail
    have hrec := ih (s + 1) n' (fun i => pix (i + 1)) (cur ++ [pix 0])
      ⟨files.finalFile, some (cur ++ [pix 0])⟩ rfl (by omega) hg2 hwy2 hfail2
    dsimp only
    rw [hrec]
    simp [List.range_succ_eq_map, List.map_map, Function.comp, List.append_assoc]

/-- Claim C2: with the block resumed at `rows_done = cur.length`, if the
next `m` rows complete and the row after them — within the clipped extent
— meets a transient outcome in some pixel, then `process_block` returns
the RETRY signal with the checkpoint holding exactly the completed rows:
the aborted row is not written (the checkpoint is as it was before that
row started), and since the next attempt resumes at the length of the
checkpoint, it restarts precisely at the index of the transient row. -/
theorem claim_C2 : ∀ (fetch : Fetcher) (bx byc wx0 wy0 wx1 wy1 : Int)
    (cur : List (List PixelRec)) (pix : Nat → List PixelRec) (m : Nat)
    (files : BlockFiles),
    files.finalFile = none →
    files.ckptFile = some cur →
    cur.length + m < BLOCK_SIZE →
    (∀ i, i < m →
      runCols fetch bx (byc + ((cur.length + i : Nat) : Int)) wx0 wy0 wx1 =
        some (pix i)) →
    byc + ((cur.length + m : Nat) : Int) ≤ wy1 →
    runCols fetch bx (byc + ((cur.length + m : Nat) : Int)) wx0 wy0 wx1 = none →
    process_block fetch bx byc wx0 wy0 wx1 wy1 files =
      (.retry, ⟨none, some (cur ++ (List.range m).map pix)⟩) ∧
    (cur ++ (List.range m).map pix).length = cur.length + m := by
  intro fetch bx byc wx0 wy0 wx1 wy1 cur pix m files hff hck hlt hgood hwy hfail
  constructor
  · simp only [process_block, hff, hck, Option.getD_some]
    have hrun := runRows_retry fetch bx byc wx0 wy0 wx1 wy1 m cur.length
      (BLOCK_SIZE - cur.length) pix cur files hck (by omega) hgood hwy hfail
    rw [hff] at hrun
    exact hrun
  · simp

/-- Witness for claim C2: rows 0..2 of a 2-wide block succeed (owner
unset, so the rows are empty), row 3 is rate limited; the block returns
RETRY with exactly three committed rows, so the next attempt resumes at
row 3, not row 0. -/
theorem claim_C2_witness :
    process_block (fun _ _ _ py => if py ≤ 2 then .success none else .rateLimit)
        0 0 0 0 1 9 ⟨none, some []⟩ =
      (.retry, ⟨none,
        some (([] : List (List PixelRec)) ++
          (List.range 3).map (fun _ => ([] : List PixelRec)))⟩) ∧
    ((([] : List (List PixelRec)) ++
        (List.range 3).map (fun _ => ([] : List PixelRec)))).length =
      ([] : List (List PixelRec)).length + 3 :=
  claim_C2 (fun _ _ _ py => if py ≤ 2 then .success none else .rateLimit)
    0 0 0 0 1 9 [] (fun _ => []) 3 ⟨none, some []⟩
    rfl rfl (by decide) (by decide) (by decide) (by decide)

/-- An uninterrupted row loop commits exactly the rows `computeRows`
describes and finishes the block with the aggregate of checkpoint plus
new rows. -/
theorem runRows_complete (fetch : Fetcher) (bx byc wx0 wy0 wx1 wy1 : Int) :
    ∀ (rows : List Nat) (tl : List (List PixelRec)) (cur : List (List PixelRec))
      (files : BlockFiles),
    computeRows fetch bx byc wx0 wy0 wx1 wy1 rows = some tl →
    runRows fetch bx byc wx0 wy0 wx1 wy1 0 rows cur files =
      (.completed, ⟨some (buildAggregate (cur ++ tl)), none⟩) := by
  intro rows
  induction rows with
  | nil =>
    intro tl cur files h
    simp only [computeRows, Option.some.injEq] at h
    subst h
    simp [runRows, finishBlock]
  | cons row rest ih =>
    intro tl cur files h
    simp only [computeRows] at h
    simp only [runRows]
    by_cases hwy : byc + (row : Int) > wy1
    · rw [if_pos hwy] at h ⊢
      simp only [Option.some.injEq] at h
      subst h
      simp [finishBlock]
    · rw [if_neg hwy] at h ⊢
      cases hc : runCols fetch bx (byc + (row : Int)) wx0 wy0 wx1 with
      | none => rw [hc] at h; exact absurd h (by simp)
      | some px =>
        rw [hc] at h
        cases hrest : computeRows fetch bx byc wx0 wy0 wx1 wy1 rest with
        | none => rw [hrest] at h; exact absurd h (by simp)
        | some tl2 =>
          rw [hrest] at h
          simp only [Option.map_some', Option.some.injEq] at h
          subst h
          dsimp only
          rw [ih tl2 (cur ++ [px]) _ hrest]
          simp

/-- Resuming `computeRows` after its first `k` rows yields exactly the
remaining rows. -/
theorem computeRows_drop (fetch : Fetcher) (bx byc wx0 wy0 wx1 wy1 : Int) :
    ∀ (k s n : Nat) (tl : List (List PixelRec)),
    computeRows fetch bx byc wx0 wy0 wx1 wy1 (List.range' s n) = some tl →
    k ≤ tl.length →
    computeRows fetch bx byc wx0 wy0 wx1 wy1 (List.range' (s + k) (n - k)) =
      some (tl.drop k) := by
  intro k
  induction k with
  | zero =>
    intro s n tl h _
    simpa using h
  | succ k ih =>
    intro s n tl h hk
    match n, tl with
    | 0, tl =>
      simp only [computeRows, List.range'] at h
      simp only [Option.some.injEq] at h
      subst h
      simp at hk
    | n + 1, tl =>
      rw [List.range'_succ] at h
      simp only [computeRows] at h
      by_cases hwy : byc + (s : Int) > wy1
      · rw [if_pos hwy] at h
        simp only [Option.some.injEq] at h
        subst h
        simp at hk
      · rw [if_neg hwy] at h
        cases hc : runCols fetch bx (byc + (s : Int)) wx0 wy0 wx1 with
        | none => rw [hc] at h; exact absurd h (by simp)
        | some px =>
          rw [hc] at h
          cases hrest : computeRows fetch bx byc wx0 wy0 wx1 wy1
              (List.range' (s + 1) n) with
          | none => rw [hrest] at h; exact absurd h (by simp)
          | some tl2 =>
            rw [hrest] at h
            simp only [Option.map_some', Option.some.injEq] at h
            subst h
            simp only [List.length_cons, Nat.add_le_add_iff_right] at hk
            have := ih (s + 1) n tl2 hrest hk
            have harith : s + 1 + k = s + (k + 1) := by omega
            have harith2 : n - k = n + 1 - (k + 1) := by omega
            rw [harith, harith2] at this
            simpa using this

/-- Claim C4: if a run of the block from an empty checkpoint meets no
transient outcome and computes rows `tl`, then running `process_block`
from a checkpoint holding any prefix of those rows returns exactly what
running it from an empty checkpoint returns — the same Completed result
and the same terminal aggregate (same painter counts and pixel list),
given the fetcher returns identical results for identical coordinates. -/
theorem claim_C4 : ∀ (fetch : Fetcher) (bx byc wx0 wy0 wx1 wy1 : Int)
    (tl : List (List PixelRec)) (k : Nat),
    computeRows fetch bx byc wx0 wy0 wx1 wy1 (List.range' 0 BLOCK_SIZE) = some tl →
    k ≤ tl.length →
    process_block fetch bx byc wx0 wy0 wx1 wy1 ⟨none, some (tl.take k)⟩ =
      process_block fetch bx byc wx0 wy0 wx1 wy1 ⟨none, none⟩ ∧
    process_block fetch bx byc wx0 wy0 wx1 wy1 ⟨none, none⟩ =
      (.completed, ⟨some (buildAggregate tl), none⟩) := by
  intro fetch bx byc wx0 wy0 wx1 wy1 tl k hfull hk
  have hempty : process_block fetch bx byc wx0 wy0 wx1 wy1 ⟨none, none⟩ =
      (.completed, ⟨some (buildAggregate tl), none⟩) := by
    simp only [process_block, Option.getD_none, List.length_nil, Nat.sub_zero]
    have := runRows_complete fetch bx byc wx0 wy0 wx1 wy1
      (List.range' 0 BLOCK_SIZE) tl [] ⟨none, none⟩ hfull
    simpa using this
  refine ⟨?_, hempty⟩
  have hlen : (tl.take k).length = k := by
    simp [List.length_take, Nat.min_eq_left hk]
  have hdrop : computeRows fetch bx byc wx0 wy0 wx1 wy1
      (List.range' k (BLOCK_SIZE - k)) = some (tl.drop k) := by
    have := computeRows_drop fetch bx byc wx0 wy0 wx1 wy1 k 0 BLOCK_SIZE tl hfull hk
    simpa using this
  have hpref : process_block fetch bx byc wx0 wy0 wx1 wy1 ⟨none, some (tl.take k)⟩ =
      (.completed, ⟨some (buildAggregate tl), none⟩) := by
    simp only [process_block, Option.getD_some, hlen]
    have := runRows_complete fetch bx byc wx0 wy0 wx1 wy1
      (List.range' k (BLOCK_SIZE - k)) (tl.drop k) (tl.take k)
      ⟨none, some (tl.take k)⟩ hdrop
    rw [List.take_append_drop] at this
    exact this
  rw [hpref, hempty]

/-- Witness for claim C4: a 2 by 2 block whose every pixel is painted by
"A#1"; resuming from a one-row checkpoint equals running from empty, and
both complete with the aggregate of all four pixels. -/
theorem claim_C4_witness :
    process_block (fun _ _ _ _ => .success (some ⟨some "A", some 1⟩))
        0 0 0 0 1 1
        ⟨none, some ([[⟨0, 0, ["A#1"]⟩, ⟨1, 0, ["A#1"]⟩],
                      [⟨0, 1, ["A#1"]⟩, ⟨1, 1, ["A#1"]⟩]].take 1)⟩ =
      process_block (fun _ _ _ _ => .success (some ⟨some "A", some 1⟩))
        0 0 0 0 1 1 ⟨none, none⟩ ∧
    process_block (fun _ _ _ _ => .success (some ⟨some "A", some 1⟩))
        0 0 0 0 1 1 ⟨none, none⟩ =
      (.completed, ⟨some (buildAggregate
        [[⟨0, 0, ["A#1"]⟩, ⟨1, 0, ["A#1"]⟩],
         [⟨0, 1, ["A#1"]⟩, ⟨1, 1, ["A#1"]⟩]]), none⟩) :=
  claim_C4 (fun _ _ _ _ => .success (some ⟨some "A", some 1⟩))
    0 0 0 0 1 1
    [[⟨0, 0, ["A#1"]⟩, ⟨1, 0, ["A#1"]⟩], [⟨0, 1, ["A#1"]⟩, ⟨1, 1, ["A#1"]⟩]] 1
    (by decide) (by decide)

/-- One axis of the partition: for any point of `[a, b]` there is exactly
one value of `range(a, b + 1, BLOCK_SIZE)` whose clipped length-10 span
contains it. -/
theorem rangeStep_cover (a b x : Int) (hax : a ≤ x) (hxb : x ≤ b) :
    ∃! v : Int, v ∈ rangeStep a b BLOCK_SIZE ∧
      (v ≤ x ∧ x ≤ v + ((BLOCK_SIZE : Int) - 1) ∧ x ≤ b) := by
  have hab : a ≤ b := le_trans hax hxb
  simp only [BLOCK_SIZE]
  have hmem : ∀ v : Int, v ∈ rangeStep a b 10 ↔
      ∃ i : Nat, i < (b - a).toNat / 10 + 1 ∧ v = a + (10 : Int) * i := by
    intro v
    rw [rangeStep, if_pos hab, List.mem_map]
    constructor
    · rintro ⟨i, hi, rfl⟩
      rw [List.mem_range] at hi
      exact ⟨i, hi, rfl⟩
    · rintro ⟨i, hi, rfl⟩
      exact ⟨i, List.mem_range.mpr hi, rfl⟩
  have ht : (((x - a).toNat : Int)) = x - a := Int.toNat_of_nonneg (by omega)
  refine ⟨a + (10 : Int) * ((x - a).toNat / 10 : Nat), ⟨?_, ?_, ?_, hxb⟩, ?_⟩
  · refine (hmem _).mpr ⟨(x - a).toNat / 10, ?_, rfl⟩
    have : (x - a).toNat ≤ (b - a).toNat := by omega
    omega
  · have h10 : 10 * ((x - a).toNat / 10) ≤ (x - a).toNat := Nat.mul_div_le _ 10
    push_cast
    omega
  · have h10 : (x - a).toNat < 10 * ((x - a).toNat / 10) + 10 :=
      Nat.lt_mul_div_succ _ (by norm_num)
    push_cast
    omega
  · rintro v ⟨hvmem, hv1, hv2, _⟩
    obtain ⟨i, _, rfl⟩ := (hmem v).mp hvmem
    have hle : 10 * i ≤ (x - a).toNat := by omega
    have hlt : (x - a).toNat < 10 * i + 10 := by push_cast at hv2; omega
    have : (x - a).toNat / 10 = i := by omega
    rw [this]

/-- Claim C5: the blocks enumerated by `collect_data_parallel`, each
clipped to the far edge of the rectangle, partition the rectangle exactly —
every pixel of the rectangle lies in the clipped extent of exactly one
enumerated block — and the scenario rectangle (0,0)-(19,9) with block size
10 yields exactly the two blocks (0,0) and (10,0), i.e. 2 in x and 1
in y. -/
theorem claim_C5 :
    (∀ wx0 wy0 wx1 wy1 x y : Int, wx0 ≤ x → x ≤ wx1 → wy0 ≤ y → y ≤ wy1 →
      ∃! blk : Int × Int, blk ∈ enum_blocks wx0 wy0 wx1 wy1 ∧
        blockCovers wx1 wy1 blk.1 blk.2 x y) ∧
    enum_blocks 0 0 19 9 = [(0, 0), (10, 0)] := by
  constructor
  · intro wx0 wy0 wx1 wy1 x y hx0 hx1 hy0 hy1
    obtain ⟨vx, ⟨hvxm, hvxc⟩, hvxu⟩ := rangeStep_cover wx0 wx1 x hx0 hx1
    obtain ⟨vy, ⟨hvym, hvyc⟩, hvyu⟩ := rangeStep_cover wy0 wy1 y hy0 hy1
    refine ⟨(vx, vy), ⟨?_, hvxc, hvyc⟩, ?_⟩
    · simp only [enum_blocks, List.mem_flatMap, List.mem_map]
      exact ⟨vy, hvym, vx, hvxm, rfl⟩
    · rintro ⟨bx, byc⟩ ⟨hm, hcovx, hcovy⟩
      simp only [enum_blocks, List.mem_flatMap, List.mem_map] at hm
      obtain ⟨b2, hb2, b1, hb1, heq⟩ := hm
      injection heq with h1 h2
      subst h1
      subst h2
      have hux := hvxu b1 ⟨hb1, hcovx⟩
      have huy := hvyu b2 ⟨hb2, hcovy⟩
      simp [hux, huy]
  · decide

/-- Witness for claim C5: in the scenario rectangle (0,0)-(19,9), the
pixel (13,5) lies in exactly one enumerated clipped block. -/
theorem claim_C5_witness :
    ∃! blk : Int × Int, blk ∈ enum_blocks 0 0 19 9 ∧
      blockCovers 19 9 blk.1 blk.2 13 5 :=
  claim_C5.1 0 0 19 9 13 5 (by decide) (by decide) (by decide) (by decide)

/-- A `defaultdict(int)` bump adds `c` to exactly the bumped key. -/
theorem lookupCount_bump (l : List (String × Nat)) (k : String) (c : Nat)
    (key : String) :
    lookupCount (bump l k c) key =
      lookupCount l key + (if k = key then c else 0) := by
  induction l with
  | nil =>
    simp only [bump, lookupCount]
    omega
  | cons hd t ih =>
    obtain ⟨k0, c0⟩ := hd
    simp only [bump]
    by_cases h : k0 = k
    · subst h
      simp only [if_pos rfl, lookupCount]
      by_cases hk : k0 = key
      · simp only [if_pos hk]
        omega
      · simp only [if_neg hk]
        omega
    · rw [if_neg h]
      simp only [lookupCount, ih]
      omega

/-- Folding the painter counts of one chunk adds them to the running totals,
key by key. -/
theorem lookupCount_mergeCounts (entries : List (String × Nat)) :
    ∀ (cs : List (String × Nat)) (key : String),
    lookupCount (mergeCounts cs entries) key =
      lookupCount cs key + lookupCount entries key := by
  induction entries with
  | nil => intro cs key; simp [mergeCounts, lookupCount]
  | cons e t ih =>
    intro cs key
    obtain ⟨k, c⟩ := e
    simp only [mergeCounts, List.foldl_cons] at *
    rw [ih, lookupCount_bump]
    simp only [lookupCount]
    omega

/-- Membership after a Python `set.add`. -/
theorem mem_addToSet (s : List String) (k a : String) :
    a ∈ addToSet s k ↔ a ∈ s ∨ a = k := by
  unfold addToSet
  split
  · constructor
    · exact Or.inl
    · rintro (h | rfl)
      · exact h
      · assumption
  · simp [List.mem_append]

/-- Membership in the pixel map after adding one key at one coordinate. -/
theorem mem_lookupSet_mapAdd (xy : Int × Int) (k : String) :
    ∀ (m : List ((Int × Int) × List String)) (xy2 : Int × Int) (a : String),
    a ∈ lookupSet (mapAdd m xy k) xy2 ↔
      a ∈ lookupSet m xy2 ∨ (xy2 = xy ∧ a = k) := by
  intro m
  induction m with
  | nil =>
    intro xy2 a
    simp only [mapAdd, lookupSet, List.append_nil]
    by_cases h : xy = xy2
    · subst h
      simp [List.mem_singleton]
    · rw [if_neg h]
      simp only [List.not_mem_nil, false_or, false_iff]
      rintro ⟨rfl, _⟩
      exact h rfl
  | cons hd t ih =>
    intro xy2 a
    obtain ⟨xy0, s⟩ := hd
    simp only [mapAdd]
    by_cases h0 : xy0 = xy
    · subst h0
      rw [if_pos rfl]
      simp only [lookupSet]
      by_cases h2 : xy0 = xy2
      · subst h2
        rw [if_pos rfl, if_pos rfl]
        simp only [List.mem_append, mem_addToSet]
        tauto
      · rw [if_neg h2, if_neg h2]
        simp only [List.nil_append]
        have : ¬(xy2 = xy0) := fun h => h2 h.symm
        tauto
    · rw [if_neg h0]
      simp only [lookupSet, List.mem_append, ih]
      tauto

/-- Specification of the pixel-merging fold: when every record carries
exactly one painter key (as `process_block` guarantees), the fold
succeeds and the resulting membership is the old membership extended by
the keys of the records at their coordinates. -/
theorem mergePixels_spec :
    ∀ (ps : List PixelRec) (m : List ((Int × Int) × List String)),
    (∀ p ∈ ps, p.painters.length = 1) →
    ∃ pm, mergePixels m ps = .ok pm ∧
      ∀ (xy : Int × Int) (a : String),
        a ∈ lookupSet pm xy ↔
          a ∈ lookupSet m xy ∨ ∃ p ∈ ps, (p.x, p.y) = xy ∧ a ∈ p.painters := by
  intro ps
  induction ps with
  | nil =>
    intro m _
    refine ⟨m, rfl, ?_⟩
    intro xy a
    simp
  | cons p rest ih =>
    intro m hlen
    obtain ⟨k, hpk⟩ := List.length_eq_one.mp (hlen p (List.mem_cons_self p rest))
    obtain ⟨pm, hok, hiff⟩ := ih (mapAdd m (p.x, p.y) k)
      (fun q hq => hlen q (List.mem_cons_of_mem p hq))
    refine ⟨pm, ?_, ?_⟩
    · simp only [mergePixels, hpk]
      exact hok
    · intro xy a
      rw [hiff xy a, mem_lookupSet_mapAdd]
      simp only [List.mem_cons]
      constructor
      · rintro ((hm | ⟨rfl, rfl⟩) | ⟨q, hq, hqxy, hqa⟩)
        · exact Or.inl hm
        · exact Or.inr ⟨p, Or.inl rfl, rfl, by simp [hpk]⟩
        · exact Or.inr ⟨q, Or.inr hq, hqxy, hqa⟩
      · rintro (hm | ⟨q, (rfl | hq), hqxy, hqa⟩)
        · exact Or.inl (Or.inl hm)
        · rw [hpk] at hqa
          rw [List.mem_singleton] at hqa
          exact Or.inl (Or.inr ⟨hqxy.symm, hqa⟩)
        · exact Or.inr ⟨q, hq, hqxy, hqa⟩

/-- Specification of the whole merge loop over a list of terminal chunk
files, relative to an arbitrary accumulated dataset. -/
theorem merge_chunks_spec :
    ∀ (aggs : List Aggregate) (st : Merged),
    (∀ agg ∈ aggs, ∀ p ∈ agg.pixels, p.painters.length = 1) →
    ∃ m, merge_chunks st (aggs.map ChunkFile.final) = .ok m ∧
      (∀ key, lookupCount m.painter_counts key =
        lookupCount st.painter_counts key +
          (aggs.map (fun a => lookupCount a.painterCounts key)).sum) ∧
      (∀ (xy : Int × Int) (a : String),
        a ∈ lookupSet m.pixel_map xy ↔
          a ∈ lookupSet st.pixel_map xy ∨
          ∃ agg ∈ aggs, ∃ p ∈ agg.pixels, (p.x, p.y) = xy ∧ a ∈ p.painters) := by
  intro aggs
  induction aggs with
  | nil =>
    intro st _
    refine ⟨st, rfl, ?_, ?_⟩
    · intro key; simp
    · intro xy a; simp
  | cons agg rest ih =>
    intro st hlen
    obtain ⟨pm, hok, hiff⟩ := mergePixels_spec agg.pixels st.pixel_map
      (hlen agg (List.mem_cons_self agg rest))
    obtain ⟨m, hok2, hcount, hset⟩ :=
      ih ⟨mergeCounts st.painter_counts agg.painterCounts, pm⟩
        (fun q hq => hlen q (List.mem_cons_of_mem agg hq))
    refine ⟨m, ?_, ?_, ?_⟩
    · simp only [List.map_cons, merge_chunks, hok]
      exact hok2
    · intro key
      rw [hcount key]
      simp only [lookupCount_mergeCounts, List.map_cons, List.sum_cons]
      omega
    · intro xy a
      rw [hset xy a]
      simp only [hiff xy a, List.mem_cons]
      constructor
      · rintro ((hm | ⟨p, hp, hxy, ha⟩) | ⟨q, hq, p, hp, hxy, ha⟩)
        · exact Or.inl hm
        · exact Or.inr ⟨agg, Or.inl rfl, p, hp, hxy, ha⟩
        · exact Or.inr ⟨q, Or.inr hq, p, hp, hxy, ha⟩
      · rintro (hm | ⟨q, (rfl | hq), p, hp, hxy, ha⟩)
        · exact Or.inl (Or.inl hm)
        · exact Or.inl (Or.inr ⟨p, hp, hxy, ha⟩)
        · exact Or.inr ⟨q, hq, p, hp, hxy, ha⟩

/-- Claim C7: merging the aggregates of the completed blocks yields, for
every painter identity, a count equal to the sum of the per-block counts
of that identity, and, for every pixel coordinate, a painter set equal to
the union over all aggregates of the identities recorded for that
coordinate.  The hypothesis that every record carries exactly one painter
key is the invariant `process_block` establishes (each record is built
with `[key]`). -/
theorem claim_C7 : ∀ (aggs : List Aggregate),
    (∀ agg ∈ aggs, ∀ p ∈ agg.pixels, p.painters.length = 1) →
    ∃ m, merge_chunks emptyMerged (aggs.map ChunkFile.final) = .ok m ∧
      (∀ key, lookupCount m.painter_counts key =
        (aggs.map (fun a => lookupCount a.painterCounts key)).sum) ∧
      (∀ (xy : Int × Int) (a : String),
        a ∈ lookupSet m.pixel_map xy ↔
          ∃ agg ∈ aggs, ∃ p ∈ agg.pixels, (p.x, p.y) = xy ∧ a ∈ p.painters) := by
  intro aggs hlen
  obtain ⟨m, hok, hcount, hset⟩ := merge_chunks_spec aggs emptyMerged hlen
  refine ⟨m, hok, ?_, ?_⟩
  · intro key
    have := hcount key
    simpa [emptyMerged, lookupCount] using this
  · intro xy a
    have := hset xy a
    simpa [emptyMerged, lookupSet] using this

/-- Witness for claim C7: two concrete block aggregates sharing painter
"a" and the coordinate (0,0); the merged counts are the per-key sums and
the merged pixel sets are the per-coordinate unions. -/
theorem claim_C7_witness :
    ∃ m, merge_chunks emptyMerged
        ([⟨[("a", 2)], [⟨0, 0, ["a"]⟩, ⟨1, 0, ["a"]⟩]⟩,
          ⟨[("a", 1), ("b", 1)], [⟨0, 0, ["b"]⟩, ⟨2, 0, ["a"]⟩]⟩].map
          ChunkFile.final) = .ok m ∧
      (∀ key, lookupCount m.painter_counts key =
        (([⟨[("a", 2)], [⟨0, 0, ["a"]⟩, ⟨1, 0, ["a"]⟩]⟩,
           ⟨[("a", 1), ("b", 1)], [⟨0, 0, ["b"]⟩, ⟨2, 0, ["a"]⟩]⟩] :
            List Aggregate).map
          (fun a => lookupCount a.painterCounts key)).sum) ∧
      (∀ (xy : Int × Int) (a : String),
        a ∈ lookupSet m.pixel_map xy ↔
          ∃ agg ∈ ([⟨[("a", 2)], [⟨0, 0, ["a"]⟩, ⟨1, 0, ["a"]⟩]⟩,
                    ⟨[("a", 1), ("b", 1)], [⟨0, 0, ["b"]⟩, ⟨2, 0, ["a"]⟩]⟩] :
              List Aggregate),
            ∃ p ∈ agg.pixels, (p.x, p.y) = xy ∧ a ∈ p.painters) :=
  claim_C7
    [⟨[("a", 2)], [⟨0, 0, ["a"]⟩, ⟨1, 0, ["a"]⟩]⟩,
     ⟨[("a", 1), ("b", 1)], [⟨0, 0, ["b"]⟩, ⟨2, 0, ["a"]⟩]⟩]
    (by decide)

/-- `insertDesc` is a permutation-preserving insert. -/
theorem perm_insertDesc (x : String × Nat) :
    ∀ l : List (String × Nat), (insertDesc x l).Perm (x :: l) := by
  intro l
  induction l with
  | nil => simp [insertDesc]
  | cons y ys ih =>
    simp only [insertDesc]
    by_cases hlt : y.2 < x.2
    · rw [if_pos hlt]
    · rw [if_neg hlt]
      exact (ih.cons y).trans (List.Perm.swap x y ys)

/-- `insertDesc` keeps the list sorted by weakly descending count. -/
theorem pairwise_insertDesc (x : String × Nat) :
    ∀ l : List (String × Nat), List.Pairwise (fun a b => b.2 ≤ a.2) l →
    List.Pairwise (fun a b => b.2 ≤ a.2) (insertDesc x l) := by
  intro l
  induction l with
  | nil => intro _; simp [insertDesc]
  | cons y ys ih =>
    intro h
    rw [List.pairwise_cons] at h
    obtain ⟨hy, hys⟩ := h
    simp only [insertDesc]
    by_cases hlt : y.2 < x.2
    · rw [if_pos hlt]
      refine List.Pairwise.cons ?_ (List.Pairwise.cons hy hys)
      intro a ha
      rw [List.mem_cons] at ha
      rcases ha with rfl | ha
      · exact le_of_lt hlt
      · exact le_trans (hy a ha) (le_of_lt hlt)
    · rw [if_neg hlt]
      refine List.Pairwise.cons ?_ (ih hys)
      intro a ha
      have hmem := (perm_insertDesc x ys).mem_iff.mp ha
      rw [List.mem_cons] at hmem
      rcases hmem with rfl | hmem
      · exact not_lt.mp hlt
      · exact hy a hmem

/-- Inserting into a sorted list puts the new entry after every
already-placed entry of the same count: filtering any count class
commutes with the insert, appending the new entry at the end of its
class. -/
theorem filter_insertDesc (c : Nat) (x : String × Nat) :
    ∀ l : List (String × Nat), List.Pairwise (fun a b => b.2 ≤ a.2) l →
    (insertDesc x l).filter (fun p => p.2 == c) =
      if x.2 == c then l.filter (fun p => p.2 == c) ++ [x]
      else l.filter (fun p => p.2 == c) := by
  intro l
  induction l with
  | nil =>
    intro _
    by_cases hx : x.2 = c <;> simp [insertDesc, List.filter_cons, hx]
  | cons y ys ih =>
    intro h
    rw [List.pairwise_cons] at h
    obtain ⟨hy, hys⟩ := h
    simp only [insertDesc]
    by_cases hlt : y.2 < x.2
    · rw [if_pos hlt]
      by_cases hx : x.2 = c
      · have hnil : (y :: ys).filter (fun p => p.2 == c) = [] := by
          rw [List.filter_eq_nil_iff]
          intro a ha
          rw [List.mem_cons] at ha
          have hac : a.2 < c := by
            rcases ha with rfl | ha
            · omega
            · have := hy a ha; omega
          simp only [beq_iff_eq]
          omega
        rw [if_pos (by simp [hx]), hnil]
        simp [List.filter_cons, hx, hnil]
      · rw [if_neg (by simp [hx])]
        simp [List.filter_cons, hx]
    · rw [if_neg hlt]
      by_cases hx : x.2 = c <;> by_cases hyc : y.2 = c <;>
        simp [List.filter_cons, hx, hyc, ih hys]

/-- The left-to-right insertion fold keeps the accumulator sorted. -/
theorem foldl_insertDesc_pairwise :
    ∀ (l acc : List (String × Nat)), List.Pairwise (fun a b => b.2 ≤ a.2) acc →
    List.Pairwise (fun a b => b.2 ≤ a.2)
      (l.foldl (fun acc x => insertDesc x acc) acc) := by
  intro l
  induction l with
  | nil => intro acc h; exact h
  | cons x t ih =>
    intro acc h
    exact ih _ (pairwise_insertDesc x acc h)

/-- Stability of the insertion fold: within any one count class the
output preserves the input order (prefixed by the class entries already
in the accumulator). -/
theorem foldl_insertDesc_filter (c : Nat) :
    ∀ (l acc : List (String × Nat)), List.Pairwise (fun a b => b.2 ≤ a.2) acc →
    (l.foldl (fun acc x => insertDesc x acc) acc).filter (fun p => p.2 == c) =
      acc.filter (fun p => p.2 == c) ++ l.filter (fun p => p.2 == c) := by
  intro l
  induction l with
  | nil => intro acc _; simp
  | cons x t ih =>
    intro acc h
    simp only [List.foldl_cons]
    rw [ih _ (pairwise_insertDesc x acc h), filter_insertDesc c x acc h]
    by_cases hx : x.2 = c <;> simp [List.filter_cons, hx]

/-- The insertion fold permutes its input. -/
theorem foldl_insertDesc_perm :
    ∀ (l acc : List (String × Nat)),
    (l.foldl (fun acc x => insertDesc x acc) acc).Perm (acc ++ l) := by
  intro l
  induction l with
  | nil => intro acc; simp
  | cons x t ih =>
    intro acc
    simp only [List.foldl_cons]
    refine (ih (insertDesc x acc)).trans ?_
    refine (List.Perm.append_right t (perm_insertDesc x acc)).trans ?_
    exact List.perm_middle.symm

/-- Claim C9: the exported painter leaderboard is a permutation of the
merged counts, sorted by weakly descending count, and entries of any
given count appear in exactly the order the merged mapping listed them
(first-encountered order): the stable tie-break. -/
theorem claim_C9 : ∀ (s e : Corner) (counts : List (String × Nat))
    (pm : List ((Int × Int) × List String)),
    List.Pairwise (fun a b => b.2 ≤ a.2)
      (export_json s e counts pm).painterCounts ∧
    ((export_json s e counts pm).painterCounts).Perm counts ∧
    (∀ c : Nat,
      ((export_json s e counts pm).painterCounts).filter (fun p => p.2 == c) =
        counts.filter (fun p => p.2 == c)) := by
  intro s e counts pm
  have hpc : (export_json s e counts pm).painterCounts =
      counts.foldl (fun acc x => insertDesc x acc) [] := rfl
  rw [hpc]
  refine ⟨?_, ?_, ?_⟩
  · exact foldl_insertDesc_pairwise counts [] List.Pairwise.nil
  · simpa using foldl_insertDesc_perm counts []
  · intro c
    simpa using foldl_insertDesc_filter c counts [] List.Pairwise.nil
